import Mathlib

/-!
Verification development for the holochain repository's core components.

Shallow embedding conventions:
* Rust byte slices / strings become `List Nat` (each element a byte value `< 256`;
  a Rust `&str` is its UTF-8 byte sequence).
* Machine integers become `Nat` (with explicit bounds where overflow matters).
* Rust `f64` values in the arq strategy are modelled as exact rationals `ℚ`;
  all concrete quantities proved about them are far from rounding boundaries.
* Fallible code returns an explicit result type; a Rust panic is a distinct
  result constructor so that panicking control flow is visible in theorems.
* The blake2b hash functions are opaque cryptographic primitives; definitions
  that call them take the hash function as an explicit parameter.
-/

namespace Holochain

/-! ### HoloHash codec — `src/crates/holo_hash/src/encode.rs` -/

/-- `HOLO_HASH_PREFIX_LEN` -/
def HOLO_HASH_PREFIX_LEN : Nat := 3

/-- `HOLO_HASH_CORE_LEN` -/
def HOLO_HASH_CORE_LEN : Nat := 32

/-- `HOLO_HASH_FULL_LEN` -/
def HOLO_HASH_FULL_LEN : Nat := 39

/-- The error enum `HoloHashError` (payloads of `BadPrefix`/`BadChecksum` are
diagnostic strings in the source and are omitted here). -/
inductive HoloHashError where
  | NoU
  | BadBase64
  | BadSize
  | BadPrefix
  | BadChecksum
  | BadHashSize
  deriving DecidableEq, Repr

/-- Result of running `holo_hash_decode`: a success, a returned error, or a
Rust panic (the source indexes `&s[..1]`, which panics when the string is
empty or its first character is not one byte long). -/
inductive HoloHashResult where
  | ok : List Nat → HoloHashResult
  | err : HoloHashError → HoloHashResult
  | panic : HoloHashResult
  deriving DecidableEq, Repr

/-- The URL_SAFE base64 alphabet (`A`–`Z`, `a`–`z`, `0`–`9`, `-`, `_`) as byte
values, in sextet order. -/
def b64Alphabet : List Nat :=
  [65, 66, 67, 68, 69, 70, 71, 72, 73, 74, 75, 76, 77, 78, 79, 80, 81, 82,
   83, 84, 85, 86, 87, 88, 89, 90,
   97, 98, 99, 100, 101, 102, 103, 104, 105, 106, 107, 108, 109, 110, 111,
   112, 113, 114, 115, 116, 117, 118, 119, 120, 121, 122,
   48, 49, 50, 51, 52, 53, 54, 55, 56, 57, 45, 95]

/-- Map a sextet value to its base64url alphabet byte. -/
def b64EncSextet (n : Nat) : Nat := b64Alphabet.getD n 0

/-- Map an input byte back to its sextet value; `none` when the byte is not in
the base64url alphabet. -/
def b64DecSextet (c : Nat) : Option Nat := b64Alphabet.findIdx? (fun x => x = c)

/-- `base64::engine::general_purpose::URL_SAFE_NO_PAD.encode`, restricted to
byte lists: each chunk of three bytes becomes four alphabet characters, with a
two- or three-character tail for one or two leftover bytes and no padding. -/
def b64EncodeBytes : List Nat → List Nat
  | [] => []
  | [x] => [b64EncSextet (x / 4), b64EncSextet (x % 4 * 16)]
  | [x, y] => [b64EncSextet (x / 4), b64EncSextet (x % 4 * 16 + y / 16),
               b64EncSextet (y % 16 * 4)]
  | x :: y :: z :: rest =>
      b64EncSextet (x / 4) :: b64EncSextet (x % 4 * 16 + y / 16) ::
      b64EncSextet (y % 16 * 4 + z / 64) :: b64EncSextet (z % 64) ::
      b64EncodeBytes rest

/-- `URL_SAFE_NO_PAD.decode`: four characters yield three bytes; a final group
of two or three characters yields one or two bytes and must have zero trailing
bits; a final group of one character, an alphabet-invalid byte, or (implicitly)
a padding character is an error (`none`). -/
def b64DecodeBytes : List Nat → Option (List Nat)
  | [] => some []
  | [_] => none
  | [c1, c2] => do
      let a ← b64DecSextet c1
      let b ← b64DecSextet c2
      if b % 16 = 0 then pure [a * 4 + b / 16] else none
  | [c1, c2, c3] => do
      let a ← b64DecSextet c1
      let b ← b64DecSextet c2
      let c ← b64DecSextet c3
      if c % 4 = 0 then pure [a * 4 + b / 16, b % 16 * 16 + c / 4] else none
  | c1 :: c2 :: c3 :: c4 :: rest => do
      let a ← b64DecSextet c1
      let b ← b64DecSextet c2
      let c ← b64DecSextet c3
      let d ← b64DecSextet c4
      let tail ← b64DecodeBytes rest
      pure ((a * 4 + b / 16) :: (b % 16 * 16 + c / 4) :: (c % 4 * 64 + d) :: tail)

/-- `holo_hash_encode`: the byte `u` (117) followed by the unpadded base64url
encoding of the 39 raw bytes. -/
def holo_hash_encode (data : List Nat) : List Nat :=
  117 :: b64EncodeBytes data

/-- `holo_dht_location_bytes`, parametric in the 16-byte `blake2b_128`
primitive: hash the data, take the first four digest bytes, then for
`i ∈ {4, 8, 12}` XOR digest bytes `i..i+4` into them, mirroring the source's
loop. -/
def holo_dht_location_bytes (blake2b_128 : List Nat → List Nat)
    (data : List Nat) : List Nat :=
  let hash := blake2b_128 data
  let out := [hash.getD 0 0, hash.getD 1 0, hash.getD 2 0, hash.getD 3 0]
  List.foldl
    (fun out i =>
      [Nat.xor (out.getD 0 0) (hash.getD i 0),
       Nat.xor (out.getD 1 0) (hash.getD (i + 1) 0),
       Nat.xor (out.getD 2 0) (hash.getD (i + 2) 0),
       Nat.xor (out.getD 3 0) (hash.getD (i + 3) 0)])
    out [4, 8, 12]

/-- `holo_hash_decode prefix s`, parametric in `blake2b_128`, over the UTF-8
bytes of `s`. Mirrors the source line by line:
* `&s[..1]` panics when `s` is empty or starts with a multi-byte character
  (first byte `≥ 128`), and yields `NoU` when the first byte is not `u`;
* base64url-decode the remainder, `BadBase64` on failure;
* `BadSize` unless exactly 39 bytes;
* `BadPrefix` unless the first three bytes equal `prefix`;
* `BadChecksum` unless the trailing four bytes equal
  `holo_dht_location_bytes` of the 32-byte core. -/
def holo_hash_decode (blake2b_128 : List Nat → List Nat)
    (pfx s : List Nat) : HoloHashResult :=
  if s.length < 1 then .panic
  else if 128 ≤ s.headI then .panic
  else if s.headI ≠ 117 then .err .NoU
  else
    match b64DecodeBytes (s.drop 1) with
    | none => .err .BadBase64
    | some b =>
      if b.length ≠ HOLO_HASH_FULL_LEN then .err .BadSize
      else if b.take HOLO_HASH_PREFIX_LEN ≠ pfx then .err .BadPrefix
      else if holo_dht_location_bytes blake2b_128
          ((b.drop HOLO_HASH_PREFIX_LEN).take HOLO_HASH_CORE_LEN)
          ≠ b.drop (HOLO_HASH_PREFIX_LEN + HOLO_HASH_CORE_LEN) then
        .err .BadChecksum
      else .ok b

/-- A fixed stand-in `blake2b_128` primitive used to instantiate witnesses:
every digest is sixteen zero bytes. -/
def constBlake : List Nat → List Nat := fun _ => List.replicate 16 0

/-! ### Arq resizing strategy — `src/crates/kitsune_p2p/dht/src/arq/strat.rs`

The source stores `min_coverage` and `buffer` as `f64`; they are modelled as
exact rationals. Every concrete value proved below is far from a rounding
boundary of the corresponding `f64` computation. -/

/-- `ArqClamping` -/
inductive ArqClamping where
  | Empty
  | Full
  deriving DecidableEq

/-- `LocalStorageConfig` -/
structure LocalStorageConfig where
  arc_clamping : Option ArqClamping
  deriving DecidableEq

/-- Modelled from the spec: `DEFAULT_MIN_PEERS` lives in the
`kitsune_p2p_dht_arc` crate, which is not part of this snapshot; spec scenario
S5 fixes the standard minimum coverage at 50. -/
def DEFAULT_MIN_PEERS : ℚ := 50

/-- `ArqStrat` -/
structure ArqStrat where
  min_coverage : ℚ
  buffer : ℚ
  max_power_diff : Nat
  slacker_ratio : ℚ
  power_std_dev_threshold : ℚ
  local_storage : LocalStorageConfig

/-- `ArqStrat::standard` -/
def ArqStrat.standard (local_storage : LocalStorageConfig) : ArqStrat :=
  { min_coverage := DEFAULT_MIN_PEERS
    buffer := 143 / 1000
    power_std_dev_threshold := 1
    max_power_diff := 2
    slacker_ratio := 75 / 100
    local_storage := local_storage }

/-- `ArqStrat::max_coverage`: `(min_coverage * (buffer + 1.0)).ceil()` (the
source keeps the ceiling as an `f64`; its value is the integer returned
here). -/
def ArqStrat.max_coverage (s : ArqStrat) : ℤ :=
  ⌈s.min_coverage * (s.buffer + 1)⌉

/-- `ArqStrat::chunk_count_threshold`: `(buffer + 1.0) / buffer`. -/
def ArqStrat.chunk_count_threshold (s : ArqStrat) : ℚ :=
  (s.buffer + 1) / s.buffer

/-- `ArqStrat::min_chunks`: `chunk_count_threshold().ceil() as u32` (the
`as u32` cast clamps negative values to zero, matching `Int.toNat`). -/
def ArqStrat.min_chunks (s : ArqStrat) : Nat :=
  (Int.ceil s.chunk_count_threshold).toNat

/-- `ArqStrat::max_chunks`: `min_chunks() * 2 - 1`, asserted odd in the
source (the assertion is claim C6's subject; the subtraction is on `u32`). -/
def ArqStrat.max_chunks (s : ArqStrat) : Nat :=
  s.min_chunks * 2 - 1

/-- `ArqStrat::max_chunks_log2`: `(max_chunks() as f64).log2().floor() as u8`.
For a positive integer argument the floored binary logarithm of the exact
`f64` conversion is `Nat.log2`. -/
def ArqStrat.max_chunks_log2 (s : ArqStrat) : Nat :=
  Nat.log2 s.max_chunks

/-! ### Bootstrap `put` — `src/crates/kitsune_p2p/bootstrap/src/put.rs` -/

/-- The fields of `AgentInfoSigned` read by the bootstrap `put` endpoint
(signature bytes and expiry); the remaining fields are opaque payload. -/
structure AgentInfoSigned where
  space : Nat
  agent : Nat
  signature : List Nat
  expires_at_ms : Nat
  payload : Nat
  deriving DecidableEq

/-- `valid`: signature must be exactly 64 bytes, and `expires_at_ms` must be
strictly greater than the current Unix time in milliseconds. -/
def valid (now_ms : Nat) (peer : AgentInfoSigned) : Bool :=
  if peer.signature.length ≠ 64 then false
  else decide (peer.expires_at_ms > now_ms)

/-- The two `warp::reject` reasons produced by `put_info`. -/
inductive PutRejection where
  | BadDecode
  | Invalid
  deriving DecidableEq

/-- `put_info`: the body is the `rmp_decode` result (`none` models a decode
failure); on a valid peer the info is stored, otherwise the request is
rejected and the store is untouched. `Store::put` keys entries by
`(space, agent)`; since the claims only concern whether the store changed,
the store is modelled as the list of accepted infos. -/
def put_info (now_ms : Nat) (peer : Option AgentInfoSigned)
    (store : List AgentInfoSigned) :
    Except PutRejection (List AgentInfoSigned) :=
  match peer with
  | none => .error .BadDecode
  | some peer =>
    if valid now_ms peer then .ok (store ++ [peer])
    else .error .Invalid

/-! ### `GetOptions` — `src/crates/holochain_p2p/src/types/actor.rs` -/

/-- Modelled from the spec: `GetRequest` is declared in
`holochain_p2p::event`, which is not part of this snapshot; only the
deterministic `Pending` variant and the existence of a default are needed. -/
inductive GetRequest where
  | All
  | Content
  | Metadata
  | Pending
  deriving DecidableEq

/-- Modelled from the spec: the `Default` for `GetRequest` (not in this
snapshot); any non-`Pending` choice plays the same role in the claims. -/
def GetRequest.default : GetRequest := .All

/-- `GetOptions` -/
structure GetOptions where
  remote_agent_count : Option Nat
  timeout_ms : Option Nat
  as_race : Bool
  race_timeout_ms : Option Nat
  follow_redirects : Bool
  all_live_actions_with_metadata : Bool
  request_type : GetRequest
  deriving DecidableEq

/-- `impl Default for GetOptions` -/
def GetOptions.default : GetOptions :=
  { remote_agent_count := none
    timeout_ms := none
    as_race := true
    race_timeout_ms := none
    follow_redirects := true
    all_live_actions_with_metadata := false
    request_type := GetRequest.default }

/-- `GetOptions::must_get_options` -/
def GetOptions.must_get_options : GetOptions :=
  { remote_agent_count := none
    timeout_ms := none
    as_race := true
    race_timeout_ms := none
    follow_redirects := false
    all_live_actions_with_metadata := false
    request_type := .Pending }

/-! ### `EntryCreationAction` — `src/crates/holochain_integrity_types/src/op.rs`

The action payloads and the canonical serializer are opaque to the claims, so
the types are parametrised by the `Create` payload `C`, the `Update` payload
`U`, the payload `O` of every other action variant, and the serializer. -/

/-- The serialized shape shared by `Action` and its by-reference mirror
`ActionRef`: a `Create`, an `Update`, or one of the other action variants. -/
inductive ActionRef (C U O : Type) where
  | Create (create : C)
  | Update (update : U)
  | Other (other : O)
  deriving DecidableEq

/-- `Action`: `Create`/`Update` carry entry-creation payloads; the remaining
eight variants are collapsed into `Other` since the claims never inspect
them. -/
inductive Action (C U O : Type) where
  | Create (create : C)
  | Update (update : U)
  | Other (other : O)
  deriving DecidableEq

/-- `EntryCreationAction` -/
inductive EntryCreationAction (C U : Type) where
  | Create (create : C)
  | Update (update : U)
  deriving DecidableEq

/-- Modelled from the spec: serde serializes an owned `Action` exactly as the
by-reference `ActionRef` of the same variant (the spec's design note calls
`EntryCreationAction` "a view over the underlying Action"); the canonical
encoder is therefore a single function on the shared shape `ActionRef`, and
an `Action` serializes via this coercion. -/
def Action.asRef : Action C U O → ActionRef C U O
  | .Create c => .Create c
  | .Update u => .Update u
  | .Other o => .Other o

/-- Modelled from the spec: `impl HashableContent for Action` (generated by
`impl_hashable_content!`, not in this snapshot) serializes the action with
the canonical encoder `enc`. -/
def Action.hashable_content (enc : ActionRef C U O → List Nat)
    (a : Action C U O) : List Nat :=
  enc a.asRef

/-- `impl HashableContent for EntryCreationAction`: wrap the borrowed payload
in the equivalent `ActionRef` variant and serialize that. -/
def EntryCreationAction.hashable_content (enc : ActionRef C U O → List Nat) :
    EntryCreationAction C U → List Nat
  | .Create create => enc (.Create create)
  | .Update update => enc (.Update update)

/-- `impl From<EntryCreationAction> for Action` -/
def EntryCreationAction.toAction : EntryCreationAction C U → Action C U O
  | .Create c => .Create c
  | .Update u => .Update u

/-- The content hash of an `Action`: the 32-byte digest primitive applied to
the canonical serialization. -/
def Action.contentHash (digest : List Nat → List Nat)
    (enc : ActionRef C U O → List Nat) (a : Action C U O) : List Nat :=
  digest (a.hashable_content enc)

/-- The content hash of an `EntryCreationAction`. -/
def EntryCreationAction.contentHash (digest : List Nat → List Nat)
    (enc : ActionRef C U O → List Nat) (e : EntryCreationAction C U) :
    List Nat :=
  digest (e.hashable_content enc)

/-! ### `ChainCasBuf` — `src/crates/holochain/src/core/state/chain_cas.rs`

Hashes, signatures and entry bodies are opaque; they are modelled as `Nat`.
The two underlying `CasBuf`s are modelled as association lists from address
to stored value (`DatabaseResult` reads of the model store never fail, so
the `DatabaseError` layer of the source drops out). -/

/-- `ChainHeader`: the two entry-bearing variants carry their
`entry_address`; the remaining variants (matched by `_` in `chain_element`)
are collapsed into `NonEntry`. -/
inductive ChainHeader where
  | EntryCreate (entry_address : Nat)
  | EntryUpdate (entry_address : Nat)
  | NonEntry (kind : Nat)
  deriving DecidableEq

/-- `SignedHeader` -/
structure SignedHeader where
  signature : Nat
  header : ChainHeader
  deriving DecidableEq

/-- `ChainElement` -/
structure ChainElement where
  signature : Nat
  header : ChainHeader
  entry : Option Nat
  deriving DecidableEq

/-- `ChainInvalidReason` (only the `MissingData` variant is relevant here). -/
inductive ChainInvalidReason where
  | MissingData (entry_address : Nat)
  deriving DecidableEq

/-- `SourceChainError` (only the `InvalidStructure` variant is relevant
here). -/
inductive SourceChainError where
  | InvalidStructure (reason : ChainInvalidReason)
  deriving DecidableEq

/-- Association-list lookup used to model a `CasBuf` keyed by hash. -/
def casGet {α : Type} (store : List (Nat × α)) (k : Nat) : Option α :=
  (store.find? (fun p => p.1 = k)).map (fun p => p.2)

/-- `ChainCasBuf`: paired entry and header stores. -/
structure ChainCasBuf where
  entries : List (Nat × Nat)
  headers : List (Nat × SignedHeader)

/-- `ChainCasBuf::get_entry` -/
def ChainCasBuf.get_entry (buf : ChainCasBuf) (entry_address : Nat) :
    Option Nat :=
  casGet buf.entries entry_address

/-- `ChainCasBuf::get_header` -/
def ChainCasBuf.get_header (buf : ChainCasBuf) (header_address : Nat) :
    Option SignedHeader :=
  casGet buf.headers header_address

/-- `ChainCasBuf::chain_element`: extract the entry address from
`EntryCreate`/`EntryUpdate` headers; if one is declared, the entry had
better be in the CAS, otherwise `InvalidStructure(MissingData)`. -/
def ChainCasBuf.chain_element (buf : ChainCasBuf)
    (signed_header : SignedHeader) :
    Except SourceChainError (Option ChainElement) :=
  let maybe_entry_address :=
    match signed_header.header with
    | .EntryCreate entry_address => some entry_address
    | .EntryUpdate entry_address => some entry_address
    | .NonEntry _ => none
  match maybe_entry_address with
  | none => .ok (some ⟨signed_header.signature, signed_header.header, none⟩)
  | some entry_address =>
    match buf.get_entry entry_address with
    | none => .error (.InvalidStructure (.MissingData entry_address))
    | some e =>
      .ok (some ⟨signed_header.signature, signed_header.header, some e⟩)

/-- `ChainCasBuf::get_element` -/
def ChainCasBuf.get_element (buf : ChainCasBuf) (header_address : Nat) :
    Except SourceChainError (Option ChainElement) :=
  match buf.get_header header_address with
  | some signed_header => buf.chain_element signed_header
  | none => .ok none

/-- The entry address a header declares, if any (the first match in
`chain_element`; used to state claim C10). -/
def ChainHeader.entryAddress : ChainHeader → Option Nat
  | .EntryCreate entry_address => some entry_address
  | .EntryUpdate entry_address => some entry_address
  | .NonEntry _ => none

/-! ### Region queries

Modelled from the spec: the implementations of `query_region_set` and
`fetch_ops_by_regions` live in the `kitsune_p2p_dht` crate and the conductor's
kitsune host impl, which are not part of this snapshot (only the test
`src/crates/holochain/src/conductor/space/tests.rs` is). Following spec §3
and §4.5: a region is a (space-interval × time-interval) cuboid; its
`RegionData` carries `(op_count, total_size, xor_hash)` computed by scanning
the integrated ops inside the bound; `query_region_set` decomposes
(full arc × [origin, now − recent_cutoff)) into leaves at quantum
granularity; `fetch_ops_by_regions` materializes the ops of each requested
region. The XOR-combined 39-byte `RegionHash` is modelled as `Nat.xor`. -/

/-- An integrated op as seen by region queries: its hash (XOR-combined),
its basis location on the ring, its authored timestamp, and its size. -/
structure RegionOp where
  hash : Nat
  loc : Nat
  timestamp : Nat
  size : Nat
  deriving DecidableEq

/-- The size of the space dimension of the ring, `2^32` locations. -/
def SPACE_SIZE : Nat := 2 ^ 32

/-- Half-open cuboid bounds of a region: locations in
`[spaceLow, spaceHigh)` and timestamps in `[timeLow, timeHigh)`. -/
structure RegionBounds where
  spaceLow : Nat
  spaceHigh : Nat
  timeLow : Nat
  timeHigh : Nat
  deriving DecidableEq

/-- Whether an op falls inside a region's bounds. -/
def opInRegion (r : RegionBounds) (o : RegionOp) : Bool :=
  decide (r.spaceLow ≤ o.loc) && decide (o.loc < r.spaceHigh) &&
  decide (r.timeLow ≤ o.timestamp) && decide (o.timestamp < r.timeHigh)

/-- `RegionData = (op_count, total_size, xor_hash)`. -/
structure RegionData where
  count : Nat
  total_size : Nat
  hash : Nat
  deriving DecidableEq

/-- The fingerprint of one region: scan the integrated ops inside the
bound, counting them, summing their sizes, and XOR-folding their hashes. -/
def regionData (ops : List RegionOp) (r : RegionBounds) : RegionData :=
  let sel := ops.filter (opInRegion r)
  { count := sel.length
    total_size := (sel.map RegionOp.size).sum
    hash := (sel.map RegionOp.hash).foldr Nat.xor 0 }

/-- Modelled from the spec: `query_region_set` over the full arc. The
historic window `[origin, origin + histQuanta·quantum)` (its upper end is
`now` minus the recent cutoff, rounded to the time quantum) is decomposed
into one full-arc leaf region per time quantum, each carrying its
`RegionData` over the integrated op set. -/
def regionTimeColumn (origin quantum i : Nat) : RegionBounds :=
  { spaceLow := 0
    spaceHigh := SPACE_SIZE
    timeLow := origin + i * quantum
    timeHigh := origin + (i + 1) * quantum }

def query_region_set (origin quantum histQuanta : Nat)
    (ops : List RegionOp) : List (RegionBounds × RegionData) :=
  (List.range histQuanta).map (fun i =>
    (regionTimeColumn origin quantum i,
     regionData ops (regionTimeColumn origin quantum i)))

/-- Modelled from the spec: `fetch_ops_by_regions` materializes, for each
requested region bound, the integrated ops lying inside it. -/
def fetch_ops_by_regions (ops : List RegionOp) (regions : List RegionBounds) :
    List RegionOp :=
  regions.flatMap (fun r => ops.filter (opInRegion r))

/-- Pointwise sum of region data: counts and sizes add, hashes XOR. -/
def RegionData.add (a b : RegionData) : RegionData :=
  { count := a.count + b.count
    total_size := a.total_size + b.total_size
    hash := Nat.xor a.hash b.hash }

/-- Sum of the data of all regions of a region set (`.map(|r| r.data).sum()`
in the test). -/
def regionSum (rs : List (RegionBounds × RegionData)) : RegionData :=
  (rs.map (fun p => p.2)).foldr RegionData.add ⟨0, 0, 0⟩

/-- Membership in the historic window: timestamp in
`[origin, origin + histQuanta·quantum)` and location on the ring (spec's
recent-op exclusion states its complement). -/
def histWindow (origin quantum histQuanta : Nat) (o : RegionOp) : Bool :=
  decide (origin ≤ o.timestamp) &&
  decide (o.timestamp < origin + histQuanta * quantum) &&
  decide (o.loc < SPACE_SIZE)

/-- XOR on `Nat` is left-commutative (used to fold hashes up to
permutation). -/
instance : LeftCommutative Nat.xor :=
  ⟨fun a b c => by
    show a ^^^ (b ^^^ c) = b ^^^ (a ^^^ c)
    rw [← Nat.xor_assoc, Nat.xor_comm a b, Nat.xor_assoc]⟩

/-- 100 concrete ops inside the historic window `[0, 30)` (origin 0, quantum
10, three historic quanta). -/
def sampleHistOps : List RegionOp :=
  (List.range 100).map (fun k => ⟨k + 1, k % 7, k % 30, 1⟩)

/-- 100 concrete ops in the recent window (timestamps `≥ 30`). -/
def sampleRecentOps : List RegionOp :=
  (List.range 100).map (fun k => ⟨1000 + k, k, 30 + k % 20, 1⟩)

/-! ### Deterministic agent activity query —
`src/crates/holochain_cascade/src/authority/get_agent_activity_query/deterministic.rs`

The SQL in `DeterministicGetAgentActivityQuery::query` selects, from the
store of integrated `RegisterAgentActivity` ops, the rows authored by
`:author` whose `seq` lies between the seqs of `:hash_low` (when given) and
`:hash_high` — each obtained by a sub-select on the row's hash, yielding SQL
`NULL` (which rejects every row) when the hash is absent — ordered by `seq`
descending. The db is modelled as the list of those integrated activity
rows; `ORDER BY seq DESC` is modelled by insertion sort with the
seq-descending relation. -/

/-- One `Action` row joined with its integrated `RegisterAgentActivity`
op: the action hash, author, `action_seq` and `prev_action` (hashes and
authors opaque, modelled as `Nat`). -/
structure ActivityRow where
  hash : Nat
  author : Nat
  seq : Nat
  prev_action : Option Nat
  deriving DecidableEq

/-- `(SELECT seq FROM Action WHERE hash = :h)`: the seq of the first row
with the given hash, if any. -/
def seqOf (db : List ActivityRow) (h : Nat) : Option Nat :=
  (db.find? (fun r => r.hash = h)).map (fun r => r.seq)

/-- The seq-range condition of the SQL `WHERE` clause for a row, under SQL
`NULL` semantics: a missing `:hash_low`/`:hash_high` sub-select result
rejects the row (`NULL` comparisons are not true), and `:hash_low IS NULL`
disables the lower bound. -/
def rowInRange (db : List ActivityRow) (low : Option Nat) (high : Nat)
    (r : ActivityRow) : Bool :=
  (match low with
   | none => true
   | some hl =>
     match seqOf db hl with
     | some ls => decide (ls ≤ r.seq)
     | none => false) &&
  (match seqOf db high with
   | some hs => decide (r.seq ≤ hs)
   | none => false)

/-- `ORDER BY seq DESC`: row `a` may precede row `b` when `b.seq ≤ a.seq`. -/
def seqDesc (a b : ActivityRow) : Prop := b.seq ≤ a.seq

instance : DecidableRel seqDesc := fun a b => Nat.decLe b.seq a.seq

instance : IsTotal ActivityRow seqDesc :=
  ⟨fun a b => Nat.le_total b.seq a.seq⟩

instance : IsTrans ActivityRow seqDesc :=
  ⟨fun _ _ _ h1 h2 => Nat.le_trans h2 h1⟩

/-- The rows produced by the SQL query: filter by author and seq range,
then sort by seq descending. -/
def queryRows (db : List ActivityRow) (author : Nat) (low : Option Nat)
    (high : Nat) : List ActivityRow :=
  List.insertionSort seqDesc
    (db.filter (fun r => decide (r.author = author) && rowInRange db low high r))

/-- `DeterministicGetAgentActivityQueryState`: the kept chain and the hash
expected of the next kept row. -/
structure QueryState where
  chain : List ActivityRow
  prev_action : Option Nat
  deriving DecidableEq

/-- `DeterministicGetAgentActivityQuery::fold`: keep a row only when its
hash equals the expected `prev_action`; keeping it pushes the row and moves
the expectation to the row's own `prev_action`. -/
def foldStep (state : QueryState) (item : ActivityRow) : QueryState :=
  if some item.hash = state.prev_action then
    { chain := state.chain ++ [item], prev_action := item.prev_action }
  else state

/-- `init_fold`: empty chain, expecting the hash at the top of the range. -/
def initState (high : Nat) : QueryState := ⟨[], some high⟩

/-- `deterministic_get_agent_activity author (low, high)` over the store:
run the SQL query, then fold the rows from `range.high` downward. -/
def deterministic_get_agent_activity (db : List ActivityRow) (author : Nat)
    (low : Option Nat) (high : Nat) : List ActivityRow :=
  ((queryRows db author low high).foldl foldStep (initState high)).chain

/-- A result list walks the `prev_action` links starting from the given
expected hash: each row's hash is the expected one, and the expectation
moves to the row's `prev_action`. -/
def linkedFrom : Option Nat → List ActivityRow → Bool
  | _, [] => true
  | none, _ :: _ => false
  | some p, r :: rest => decide (r.hash = p) && linkedFrom r.prev_action rest

/-- The contiguous descending slice `[ch hi, ch (hi−1), …, ch lo]` of a
chain family. -/
def descSlice (ch : Nat → ActivityRow) (lo hi : Nat) : List ActivityRow :=
  (List.range (hi + 1 - lo)).map (fun k => ch (hi - k))

/-- Strict seq-descending order on rows (`ORDER BY seq DESC` with all seqs
distinct). -/
def seqStrict (x y : ActivityRow) : Prop := y.seq < x.seq

instance : IsAntisymm ActivityRow seqStrict :=
  ⟨fun _ _ h1 h2 => absurd (Nat.lt_trans h1 h2) (Nat.lt_irrefl _)⟩

/-- A fork-free chain window of author `a` inside the store: rows `ch 0 …
ch (n−1)` with `action_seq` equal to the index, `prev_action` linking each
row to its predecessor, the store's rows for `a` being exactly the chain
(up to order), and hash lookups resolving to the right seq. -/
structure ChainModel (db : List ActivityRow) (a : Nat)
    (ch : Nat → ActivityRow) (n : Nat) : Prop where
  author_eq : ∀ i, i < n → (ch i).author = a
  seq_eq : ∀ i, i < n → (ch i).seq = i
  prev_link : ∀ i, i + 1 < n → (ch (i + 1)).prev_action = some (ch i).hash
  rows : (db.filter (fun r => decide (r.author = a))).Perm
    ((List.range n).map ch)
  seq_lookup : ∀ i, i < n → seqOf db (ch i).hash = some i

/-- A concrete 10-action fork-free chain of author 7: action `i` has hash
`100 + i` and links to hash `99 + i`. -/
def sampleChain : Nat → ActivityRow := fun i =>
  ⟨100 + i, 7, i, if i = 0 then none else some (100 + i - 1)⟩

/-! ## Theorems -/

/-- C5: for every 32-byte core `c` (and every 16-byte `blake2b_128`
primitive), the 4-byte DHT location checksum is exactly the XOR-fold of the
four 4-byte lanes of the digest — bytes `0..4 ⊕ 4..8 ⊕ 8..12 ⊕ 12..16` —
and it depends only on `c` (it is a pure function of the core). -/
theorem claim_C5_location_xor_fold (blake : List Nat → List Nat)
    (c : List Nat) (hc : c.length = 32) (hb : (blake c).length = 16) :
    holo_dht_location_bytes blake c =
      [Nat.xor (Nat.xor (Nat.xor ((blake c).getD 0 0) ((blake c).getD 4 0))
         ((blake c).getD 8 0)) ((blake c).getD 12 0),
       Nat.xor (Nat.xor (Nat.xor ((blake c).getD 1 0) ((blake c).getD 5 0))
         ((blake c).getD 9 0)) ((blake c).getD 13 0),
       Nat.xor (Nat.xor (Nat.xor ((blake c).getD 2 0) ((blake c).getD 6 0))
         ((blake c).getD 10 0)) ((blake c).getD 14 0),
       Nat.xor (Nat.xor (Nat.xor ((blake c).getD 3 0) ((blake c).getD 7 0))
         ((blake c).getD 11 0)) ((blake c).getD 15 0)] ∧
    ∀ c', c = c' →
      holo_dht_location_bytes blake c = holo_dht_location_bytes blake c' := by
  refine ⟨rfl, ?_⟩
  intro c' h
  rw [h]

/-- Witness for C5 at a concrete 32-byte core and the constant digest. -/
theorem claim_C5_witness :
    (List.replicate 32 0).length = 32 ∧
    (constBlake (List.replicate 32 0)).length = 16 ∧
    holo_dht_location_bytes constBlake (List.replicate 32 0) = [0, 0, 0, 0] :=
  ⟨by decide, by decide,
   ((claim_C5_location_xor_fold constBlake (List.replicate 32 0)
      (by decide) (by decide)).1).trans (by decide)⟩

/-- C8: `GetOptions::must_get_options()` pins `follow_redirects = false` and
the deterministic `GetRequest::Pending`, while `GetOptions::default()` has
`follow_redirects = true`: the must-get variant removes redirect
nondeterminism. -/
theorem claim_C8_must_get_options :
    GetOptions.must_get_options.follow_redirects = false ∧
    GetOptions.must_get_options.request_type = GetRequest.Pending ∧
    GetOptions.default.follow_redirects = true :=
  ⟨rfl, rfl, rfl⟩

/-- C7: the bootstrap `put` endpoint stores a decoded `AgentInfoSigned` iff
its signature is exactly 64 bytes and `expires_at_ms` is strictly greater
than the current time; a 63-byte signature or `expires_at_ms = now − 1` is
rejected, and a rejection returns before `store.put`, leaving the store
unchanged. -/
theorem claim_C7_bootstrap_put_validity (now : Nat) (peer : AgentInfoSigned)
    (store : List AgentInfoSigned) :
    (put_info now (some peer) store = .ok (store ++ [peer]) ↔
      peer.signature.length = 64 ∧ now < peer.expires_at_ms) ∧
    (peer.signature.length = 63 →
      put_info now (some peer) store = .error .Invalid) ∧
    (peer.expires_at_ms = now - 1 →
      put_info now (some peer) store = .error .Invalid) := by
  unfold put_info valid
  refine ⟨?_, ?_, ?_⟩
  · by_cases h64 : peer.signature.length = 64 <;>
      by_cases hexp : now < peer.expires_at_ms <;>
      simp [h64, hexp]
  · intro h63
    simp [h63]
  · intro hexp
    have : ¬ now < peer.expires_at_ms := by omega
    by_cases h64 : peer.signature.length = 64 <;> simp [h64, this]

/-- Witness for C7: a 64-byte signature expiring in the future is stored; a
63-byte signature and an already-expired info are rejected. -/
theorem claim_C7_witness :
    (put_info 1000 (some ⟨0, 0, List.replicate 64 0, 61000, 0⟩) [] =
        .ok ([] ++ [⟨0, 0, List.replicate 64 0, 61000, 0⟩]) ↔
      (List.replicate 64 (0 : Nat)).length = 64 ∧ 1000 < 61000) ∧
    put_info 1000 (some ⟨0, 0, List.replicate 63 0, 61000, 0⟩) [] =
      .error .Invalid ∧
    put_info 1000 (some ⟨0, 0, List.replicate 64 0, 999, 0⟩) [] =
      .error .Invalid :=
  ⟨claim_C7_bootstrap_put_validity 1000 ⟨0, 0, List.replicate 64 0, 61000, 0⟩ [] |>.1,
   (claim_C7_bootstrap_put_validity 1000 ⟨0, 0, List.replicate 63 0, 61000, 0⟩ []).2.1
     (by decide),
   (claim_C7_bootstrap_put_validity 1000 ⟨0, 0, List.replicate 64 0, 999, 0⟩ []).2.2
     (by decide)⟩

/-- C10: `ChainCasBuf::get_element` on a stored `EntryCreate`/`EntryUpdate`
header whose entry is absent from the entry CAS returns
`InvalidStructure(MissingData(entry_address))`; it never returns an element
whose header declares an entry address without that entry; an unknown header
hash yields `Ok(None)`; a header with no entry yields the element with no
entry. -/
theorem claim_C10_get_element_missing_entry (buf : ChainCasBuf)
    (header_address : Nat) :
    (∀ sh, buf.get_header header_address = some sh →
      ∀ a, sh.header.entryAddress = some a → buf.get_entry a = none →
        buf.get_element header_address =
          .error (.InvalidStructure (.MissingData a))) ∧
    (buf.get_header header_address = none →
      buf.get_element header_address = .ok none) ∧
    (∀ sh, buf.get_header header_address = some sh →
      sh.header.entryAddress = none →
        buf.get_element header_address =
          .ok (some ⟨sh.signature, sh.header, none⟩)) ∧
    (∀ el, buf.get_element header_address = .ok (some el) →
      ∀ a, el.header.entryAddress = some a →
        ∃ e, el.entry = some e ∧ buf.get_entry a = some e) := by
  refine ⟨?_, ?_, ?_, ?_⟩
  · intro sh hsh a ha hent
    unfold ChainCasBuf.get_element
    rw [hsh]
    unfold ChainCasBuf.chain_element
    cases h : sh.header <;> simp_all [ChainHeader.entryAddress]
  · intro h
    unfold ChainCasBuf.get_element
    rw [h]
  · intro sh hsh ha
    unfold ChainCasBuf.get_element
    rw [hsh]
    unfold ChainCasBuf.chain_element
    cases h : sh.header <;> simp_all [ChainHeader.entryAddress]
  · intro el hel a ha
    unfold ChainCasBuf.get_element at hel
    cases hh : buf.get_header header_address with
    | none => rw [hh] at hel; simp at hel
    | some sh =>
      rw [hh] at hel
      obtain ⟨sig, hd⟩ := sh
      unfold ChainCasBuf.chain_element at hel
      cases hd with
      | EntryCreate addr =>
        simp only at hel
        cases he : buf.get_entry addr with
        | none => rw [he] at hel; simp at hel
        | some e =>
          rw [he] at hel
          simp only [Except.ok.injEq, Option.some.injEq] at hel
          subst hel
          simp [ChainHeader.entryAddress] at ha
          subst ha
          exact ⟨e, rfl, he⟩
      | EntryUpdate addr =>
        simp only at hel
        cases he : buf.get_entry addr with
        | none => rw [he] at hel; simp at hel
        | some e =>
          rw [he] at hel
          simp only [Except.ok.injEq, Option.some.injEq] at hel
          subst hel
          simp [ChainHeader.entryAddress] at ha
          subst ha
          exact ⟨e, rfl, he⟩
      | NonEntry k =>
        simp only [Except.ok.injEq, Option.some.injEq] at hel
        subst hel
        simp [ChainHeader.entryAddress] at ha

/-- Witness for C10: a store holding an `EntryCreate` header at address 1
declaring entry 7, with an empty entry CAS. -/
theorem claim_C10_witness :
    (ChainCasBuf.mk [] [(1, ⟨9, .EntryCreate 7⟩)]).get_header 1 =
      some ⟨9, .EntryCreate 7⟩ ∧
    (⟨9, ChainHeader.EntryCreate 7⟩ : SignedHeader).header.entryAddress =
      some 7 ∧
    (ChainCasBuf.mk [] [(1, ⟨9, .EntryCreate 7⟩)]).get_entry 7 = none ∧
    (ChainCasBuf.mk [] [(1, ⟨9, .EntryCreate 7⟩)]).get_element 1 =
      .error (.InvalidStructure (.MissingData 7)) :=
  ⟨by decide, by decide, by decide,
   (claim_C10_get_element_missing_entry
      (ChainCasBuf.mk [] [(1, ⟨9, .EntryCreate 7⟩)]) 1).1
     ⟨9, .EntryCreate 7⟩ (by decide) 7 (by decide) (by decide)⟩

/-- C6: for every `ArqStrat` with buffer `β > 0`,
`min_chunks() = ⌈(β+1)/β⌉` and `max_chunks() = 2·min_chunks() − 1`, which is
always odd (the oddness assertion in `max_chunks` never fails); with
`min_coverage = 50` and `buffer = 0.143` this gives `min_chunks = 8`,
`max_chunks = 15`, `max_chunks_log2 = 3` and `max_coverage = 58`. -/
theorem claim_C6_arq_strat_chunks (s : ArqStrat) (hβ : 0 < s.buffer) :
    (s.min_chunks = (Int.ceil ((s.buffer + 1) / s.buffer)).toNat ∧
     s.max_chunks = 2 * s.min_chunks - 1 ∧
     s.max_chunks % 2 = 1) ∧
    (s.min_coverage = 50 → s.buffer = 143 / 1000 →
      s.min_chunks = 8 ∧ s.max_chunks = 15 ∧ s.max_chunks_log2 = 3 ∧
      s.max_coverage = 58) := by
  have hle : (1 : ℚ) < s.chunk_count_threshold := by
    rw [ArqStrat.chunk_count_threshold, lt_div_iff hβ]
    linarith
  have hmin1 : 1 ≤ s.min_chunks := by
    rw [ArqStrat.min_chunks]
    have h2 : (1 : ℚ) ≤ (Int.ceil s.chunk_count_threshold : ℚ) :=
      le_of_lt (lt_of_lt_of_le hle (Int.le_ceil s.chunk_count_threshold))
    have h1 : (1 : ℤ) ≤ Int.ceil s.chunk_count_threshold := by
      exact_mod_cast h2
    omega
  refine ⟨⟨rfl, by rw [ArqStrat.max_chunks]; ring_nf, ?_⟩, ?_⟩
  · rw [ArqStrat.max_chunks]
    omega
  · intro hcov hbuf
    have hth : s.chunk_count_threshold = 1143 / 143 := by
      rw [ArqStrat.chunk_count_threshold, hbuf]
      norm_num
    have hminc : s.min_chunks = 8 := by
      rw [ArqStrat.min_chunks, hth]
      have h : (⌈(1143 : ℚ) / 143⌉ : ℤ) = 8 := by norm_num [Int.ceil_eq_iff]
      rw [h]
      rfl
    have hmaxc : s.max_chunks = 15 := by
      rw [ArqStrat.max_chunks, hminc]
    refine ⟨hminc, hmaxc, ?_, ?_⟩
    · rw [ArqStrat.max_chunks_log2, hmaxc]
      simp [Nat.log2]
    · rw [ArqStrat.max_coverage, hcov, hbuf]
      norm_num [Int.ceil_eq_iff]

/-- Witness for C6 at the standard strategy (`min_coverage = 50`,
`buffer = 0.143`). -/
theorem claim_C6_witness :
    0 < (ArqStrat.standard ⟨none⟩).buffer ∧
    (ArqStrat.standard ⟨none⟩).min_chunks = 8 ∧
    (ArqStrat.standard ⟨none⟩).max_chunks = 15 ∧
    (ArqStrat.standard ⟨none⟩).max_chunks_log2 = 3 ∧
    (ArqStrat.standard ⟨none⟩).max_coverage = 58 :=
  ⟨by norm_num [ArqStrat.standard],
   (claim_C6_arq_strat_chunks (ArqStrat.standard ⟨none⟩)
      (by norm_num [ArqStrat.standard])).2
     (by norm_num [ArqStrat.standard, DEFAULT_MIN_PEERS])
     (by norm_num [ArqStrat.standard])⟩

/-- C9: for every `Create` action `c`, the content hash of
`EntryCreationAction::Create(c)` equals the content hash of
`Action::Create(c)` (likewise for `Update`): hashing commutes with the
`From<EntryCreationAction> for Action` conversion, so the projection view
hashes identically to the underlying action. -/
theorem claim_C9_hash_commutes_with_from (C U O : Type)
    (digest : List Nat → List Nat) (enc : ActionRef C U O → List Nat) :
    (∀ c : C,
      EntryCreationAction.contentHash digest enc (.Create c) =
        Action.contentHash digest enc (.Create c)) ∧
    (∀ u : U,
      EntryCreationAction.contentHash digest enc (.Update u) =
        Action.contentHash digest enc (.Update u)) ∧
    ∀ e : EntryCreationAction C U,
      EntryCreationAction.contentHash digest enc e =
        Action.contentHash digest enc (@EntryCreationAction.toAction C U O e) := by
  refine ⟨fun c => rfl, fun u => rfl, fun e => ?_⟩
  cases e <;> rfl

/-! Base64url lemmas shared by the hash-codec claims. -/

/-- Decoding inverts encoding on sextet values. -/
theorem b64_dec_enc : ∀ n < 64, b64DecSextet (b64EncSextet n) = some n := by
  decide

/-- A successfully decoded character is the encoding of its sextet. -/
theorem b64_enc_dec {c a : Nat} (h : b64DecSextet c = some a) :
    a < 64 ∧ b64EncSextet a = c := by
  rw [b64DecSextet, List.findIdx?_eq_some_iff_getElem] at h
  obtain ⟨hlt, hp, -⟩ := h
  have hlen : b64Alphabet.length = 64 := by decide
  refine ⟨by omega, ?_⟩
  have hc : b64Alphabet[a] = c := by simpa using hp
  rw [b64EncSextet, List.getD_eq_getElem _ _ (by omega), hc]

/-- Base64url decode inverts encode on byte lists. -/
theorem b64_roundtrip : ∀ bs : List Nat, (∀ x ∈ bs, x < 256) →
    b64DecodeBytes (b64EncodeBytes bs) = some bs
  | [], _ => rfl
  | [x], h => by
    have hx : x < 256 := h x (by simp)
    have d1 := b64_dec_enc (x / 4) (by omega)
    have d2 := b64_dec_enc (x % 4 * 16) (by omega)
    simp only [b64EncodeBytes, b64DecodeBytes, d1, d2, Option.bind_eq_bind,
      Option.some_bind]
    rw [if_pos (by omega)]
    refine congrArg some ?_
    simp only [List.cons.injEq, and_true]
    omega
  | [x, y], h => by
    have hx : x < 256 := h x (by simp)
    have hy : y < 256 := h y (by simp)
    have d1 := b64_dec_enc (x / 4) (by omega)
    have d2 := b64_dec_enc (x % 4 * 16 + y / 16) (by omega)
    have d3 := b64_dec_enc (y % 16 * 4) (by omega)
    simp only [b64EncodeBytes, b64DecodeBytes, d1, d2, d3, Option.bind_eq_bind,
      Option.some_bind]
    rw [if_pos (by omega)]
    refine congrArg some ?_
    simp only [List.cons.injEq, and_true]
    omega
  | x :: y :: z :: rest, h => by
    have hx : x < 256 := h x (by simp)
    have hy : y < 256 := h y (by simp)
    have hz : z < 256 := h z (by simp)
    have d1 := b64_dec_enc (x / 4) (by omega)
    have d2 := b64_dec_enc (x % 4 * 16 + y / 16) (by omega)
    have d3 := b64_dec_enc (y % 16 * 4 + z / 64) (by omega)
    have d4 := b64_dec_enc (z % 64) (by omega)
    have ih := b64_roundtrip rest (fun a ha => h a (by simp [ha]))
    simp only [b64EncodeBytes, b64DecodeBytes, d1, d2, d3, d4, ih,
      Option.bind_eq_bind, Option.some_bind]
    refine congrArg some ?_
    simp only [List.cons.injEq]
    exact ⟨by omega, by omega, by omega, trivial⟩

/-- A string that base64url-decodes successfully is the encoding of its
decode: with no padding and the trailing-bits check, each byte list has a
unique valid encoding. -/
theorem b64_unique : ∀ s bs : List Nat, b64DecodeBytes s = some bs →
    s = b64EncodeBytes bs
  | [], bs, hdec => by
    simp only [b64DecodeBytes, Option.some.injEq] at hdec
    rw [← hdec]
    rfl
  | [c1], bs, hdec => by
    simp [b64DecodeBytes] at hdec
  | [c1, c2], bs, hdec => by
    cases h1 : b64DecSextet c1 with
    | none => simp [b64DecodeBytes, h1] at hdec
    | some a =>
      cases h2 : b64DecSextet c2 with
      | none => simp [b64DecodeBytes, h1, h2] at hdec
      | some b =>
        obtain ⟨ha, hea⟩ := b64_enc_dec h1
        obtain ⟨hb, heb⟩ := b64_enc_dec h2
        simp only [b64DecodeBytes, h1, h2, Option.bind_eq_bind,
          Option.some_bind] at hdec
        by_cases hm : b % 16 = 0
        · rw [if_pos hm] at hdec
          simp only [Option.pure_def, Option.some.injEq] at hdec
          subst hdec
          simp only [b64EncodeBytes, List.cons.injEq, and_true]
          constructor
          · rw [show (a * 4 + b / 16) / 4 = a from by omega, hea]
          · rw [show (a * 4 + b / 16) % 4 * 16 = b from by omega, heb]
        · rw [if_neg hm] at hdec
          exact Option.noConfusion hdec
  | [c1, c2, c3], bs, hdec => by
    cases h1 : b64DecSextet c1 with
    | none => simp [b64DecodeBytes, h1] at hdec
    | some a =>
      cases h2 : b64DecSextet c2 with
      | none => simp [b64DecodeBytes, h1, h2] at hdec
      | some b =>
        cases h3 : b64DecSextet c3 with
        | none => simp [b64DecodeBytes, h1, h2, h3] at hdec
        | some c =>
          obtain ⟨ha, hea⟩ := b64_enc_dec h1
          obtain ⟨hb, heb⟩ := b64_enc_dec h2
          obtain ⟨hc, hec⟩ := b64_enc_dec h3
          simp only [b64DecodeBytes, h1, h2, h3, Option.bind_eq_bind,
            Option.some_bind] at hdec
          by_cases hm : c % 4 = 0
          · rw [if_pos hm] at hdec
            simp only [Option.pure_def, Option.some.injEq] at hdec
            subst hdec
            simp only [b64EncodeBytes, List.cons.injEq, and_true]
            refine ⟨?_, ?_, ?_⟩
            · rw [show (a * 4 + b / 16) / 4 = a from by omega, hea]
            · rw [show (a * 4 + b / 16) % 4 * 16 +
                (b % 16 * 16 + c / 4) / 16 = b from by omega, heb]
            · rw [show (b % 16 * 16 + c / 4) % 16 * 4 = c from by omega, hec]
          · rw [if_neg hm] at hdec
            exact Option.noConfusion hdec
  | c1 :: c2 :: c3 :: c4 :: rest, bs, hdec => by
    cases h1 : b64DecSextet c1 with
    | none => simp [b64DecodeBytes, h1] at hdec
    | some a =>
      cases h2 : b64DecSextet c2 with
      | none => simp [b64DecodeBytes, h1, h2] at hdec
      | some b =>
        cases h3 : b64DecSextet c3 with
        | none => simp [b64DecodeBytes, h1, h2, h3] at hdec
        | some c =>
          cases h4 : b64DecSextet c4 with
          | none => simp [b64DecodeBytes, h1, h2, h3, h4] at hdec
          | some d =>
            cases hrest : b64DecodeBytes rest with
            | none => simp [b64DecodeBytes, h1, h2, h3, h4, hrest] at hdec
            | some tail =>
              obtain ⟨ha, hea⟩ := b64_enc_dec h1
              obtain ⟨hb, heb⟩ := b64_enc_dec h2
              obtain ⟨hc, hec⟩ := b64_enc_dec h3
              obtain ⟨hd, hed⟩ := b64_enc_dec h4
              have ih := b64_unique rest tail hrest
              simp only [b64DecodeBytes, h1, h2, h3, h4, hrest,
                Option.bind_eq_bind, Option.some_bind, Option.pure_def,
                Option.some.injEq] at hdec
              subst hdec
              simp only [b64EncodeBytes, List.cons.injEq]
              refine ⟨?_, ?_, ?_, ?_, ih⟩
              · rw [show (a * 4 + b / 16) / 4 = a from by omega, hea]
              · rw [show (a * 4 + b / 16) % 4 * 16 +
                  (b % 16 * 16 + c / 4) / 16 = b from by omega, heb]
              · rw [show (b % 16 * 16 + c / 4) % 16 * 4 +
                  (c % 4 * 64 + d) / 64 = c from by omega, hec]
              · rw [show (c % 4 * 64 + d) % 64 = d from by omega, hed]

/-- Setting position `i` to a value different from the element there changes
the list. -/
theorem set_ne_of_getElem_ne {α : Type} {l : List α} {i : Nat} {c : α}
    (h : i < l.length) (hne : c ≠ l[i]) : l.set i c ≠ l := by
  intro he
  have h1 : (l.set i c)[i]? = some c := List.getElem?_set_self (by simpa using h)
  rw [he, List.getElem?_eq_getElem h] at h1
  exact hne (Option.some.inj h1).symm

/-- Base64url encoding is injective on byte lists. -/
theorem b64_encode_inj {b b' : List Nat} (hb : ∀ x ∈ b, x < 256)
    (hb' : ∀ x ∈ b', x < 256) (h : b64EncodeBytes b = b64EncodeBytes b') :
    b = b' := by
  have h1 := b64_roundtrip b hb
  rw [h, b64_roundtrip b' hb'] at h1
  exact (Option.some.inj h1).symm

/-- Evaluating `holo_hash_decode` on an encoded byte list: the `u` and
base64 layers always succeed, leaving the size, prefix and checksum
checks. -/
theorem holo_decode_encode (blake : List Nat → List Nat) (pfx bs : List Nat)
    (hbytes : ∀ x ∈ bs, x < 256) :
    holo_hash_decode blake pfx (holo_hash_encode bs) =
      if bs.length ≠ 39 then .err .BadSize
      else if bs.take 3 ≠ pfx then .err .BadPrefix
      else if holo_dht_location_bytes blake ((bs.drop 3).take 32) ≠
          bs.drop 35 then .err .BadChecksum
      else .ok bs := by
  unfold holo_hash_decode holo_hash_encode
  rw [if_neg (by simp), if_neg (by simp [List.headI]), if_neg (by simp [List.headI])]
  simp only [List.drop_succ_cons, List.drop_zero, b64_roundtrip bs hbytes,
    HOLO_HASH_FULL_LEN, HOLO_HASH_PREFIX_LEN, HOLO_HASH_CORE_LEN]

/-- Inversion of a successful `holo_hash_decode`: the input string is
exactly the encoding of the returned bytes, which are 39 bytes long with
the requested prefix and a valid checksum. -/
theorem holo_decode_ok {blake : List Nat → List Nat} {pfx s b : List Nat}
    (h : holo_hash_decode blake pfx s = .ok b) :
    s = holo_hash_encode b ∧ b.length = 39 ∧ b.take 3 = pfx ∧
    holo_dht_location_bytes blake ((b.drop 3).take 32) = b.drop 35 := by
  unfold holo_hash_decode at h
  by_cases h1 : s.length < 1
  · rw [if_pos h1] at h
    exact absurd h (by simp)
  rw [if_neg h1] at h
  by_cases h2 : 128 ≤ s.headI
  · rw [if_pos h2] at h
    exact absurd h (by simp)
  rw [if_neg h2] at h
  by_cases h3 : s.headI ≠ 117
  · rw [if_pos h3] at h
    exact absurd h (by simp)
  rw [if_neg h3] at h
  push_neg at h3
  cases hb64 : b64DecodeBytes (s.drop 1) with
  | none =>
    rw [hb64] at h
    dsimp only at h
    exact absurd h (by simp)
  | some bb =>
    rw [hb64] at h
    dsimp only at h
    by_cases h4 : bb.length ≠ HOLO_HASH_FULL_LEN
    · rw [if_pos h4] at h
      exact absurd h (by simp)
    rw [if_neg h4] at h
    by_cases h5 : bb.take HOLO_HASH_PREFIX_LEN ≠ pfx
    · rw [if_pos h5] at h
      exact absurd h (by simp)
    rw [if_neg h5] at h
    by_cases h6 : holo_dht_location_bytes blake
        ((bb.drop HOLO_HASH_PREFIX_LEN).take HOLO_HASH_CORE_LEN) ≠
        bb.drop (HOLO_HASH_PREFIX_LEN + HOLO_HASH_CORE_LEN)
    · rw [if_pos h6] at h
      exact absurd h (by simp)
    rw [if_neg h6] at h
    push_neg at h4 h5 h6
    have hbb : bb = b := by
      have := HoloHashResult.ok.inj h
      exact this
    subst hbb
    cases s with
    | nil => simp at h1
    | cons a t =>
      have ha : a = 117 := h3
      have ht : t = b64EncodeBytes bb := b64_unique t bb (by simpa using hb64)
      subst ha
      refine ⟨by rw [holo_hash_encode, ← ht], h4, h5, h6⟩

/-- C3: for every 39-byte value `b` with a valid trailing checksum and
prefix `p`, `holo_hash_decode p (holo_hash_encode b)` returns exactly `b`;
and mutating any single byte of `b` before encoding, or any single byte of
the encoded text, makes decode return an error rather than the original
bytes (the result is never `ok b`; prefix-byte mutations yield `BadPrefix`
and checksum-byte mutations yield `BadChecksum` outright; a text mutation
stays within ASCII so the mutant is still a one-byte character). -/
theorem claim_C3_hash_roundtrip (blake : List Nat → List Nat)
    (pfx b : List Nat) (hlen : b.length = 39) (hbytes : ∀ x ∈ b, x < 256)
    (hpfx : b.take 3 = pfx)
    (hck : holo_dht_location_bytes blake ((b.drop 3).take 32) = b.drop 35) :
    holo_hash_decode blake pfx (holo_hash_encode b) = .ok b ∧
    (∀ i, i < 39 → ∀ c, c < 256 → c ≠ b.getD i 0 →
      holo_hash_decode blake pfx (holo_hash_encode (b.set i c)) ≠ .ok b ∧
      (i < 3 →
        holo_hash_decode blake pfx (holo_hash_encode (b.set i c)) =
          .err .BadPrefix) ∧
      (35 ≤ i →
        holo_hash_decode blake pfx (holo_hash_encode (b.set i c)) =
          .err .BadChecksum)) ∧
    (∀ j, j < (holo_hash_encode b).length → ∀ c, c < 128 →
      c ≠ (holo_hash_encode b).getD j 0 →
      holo_hash_decode blake pfx ((holo_hash_encode b).set j c) ≠ .ok b) := by
  refine ⟨?_, ?_, ?_⟩
  · rw [holo_decode_encode blake pfx b hbytes, if_neg (by simp [hlen]),
      if_neg (by simp [hpfx]), if_neg (by simp [hck])]
  · intro i hi c hc hnegd
    have hib : i < b.length := by omega
    have hcb : c ≠ b[i] := by
      rwa [List.getD_eq_getElem _ _ hib] at hnegd
    have hsetne : b.set i c ≠ b := set_ne_of_getElem_ne hib hcb
    have hbytes2 : ∀ x ∈ b.set i c, x < 256 := fun x hx =>
      (List.mem_or_eq_of_mem_set hx).elim (hbytes x) (fun he => he ▸ hc)
    have hlen2 : (b.set i c).length = 39 := by simp [hlen]
    refine ⟨?_, ?_, ?_⟩
    · intro hok
      obtain ⟨hs, -, -, -⟩ := holo_decode_ok hok
      have hXY : b64EncodeBytes (b.set i c) = b64EncodeBytes b := by
        simpa [holo_hash_encode] using hs
      exact hsetne (b64_encode_inj hbytes2 hbytes hXY)
    · intro hi3
      have hplen : (b.take 3).length = 3 := by simp [hlen]
      have hib3 : i < (b.take 3).length := by omega
      have hcb3 : c ≠ (b.take 3)[i] := by
        rw [List.getElem_take]
        exact hcb
      have hcond : (b.set i c).take 3 ≠ pfx := by
        rw [List.set_take, ← hpfx]
        exact set_ne_of_getElem_ne hib3 hcb3
      rw [holo_decode_encode blake pfx _ hbytes2, if_neg (by simp [hlen2]),
        if_pos hcond]
    · intro hi35
      have htake : (b.set i c).take 3 = pfx := by
        rw [List.set_take, List.set_eq_of_length_le (by simp [hlen]; omega),
          hpfx]
      have hcore : ((b.set i c).drop 3).take 32 = (b.drop 3).take 32 := by
        rw [List.drop_set, if_neg (by omega), List.set_take,
          List.set_eq_of_length_le (by simp [hlen]; omega)]
      have htail : (b.set i c).drop 35 = (b.drop 35).set (i - 35) c := by
        rw [List.drop_set, if_neg (by omega)]
      have hdlen : i - 35 < (b.drop 35).length := by simp [hlen]; omega
      have hdi : (b.drop 35)[i - 35] = b[i] := by
        have h1 : (b.drop 35)[i - 35]? = b[i]? := by
          rw [List.getElem?_drop]
          congr 1
          omega
        rw [List.getElem?_eq_getElem hdlen, List.getElem?_eq_getElem hib] at h1
        exact Option.some.inj h1
      have hdne : (b.drop 35).set (i - 35) c ≠ b.drop 35 :=
        set_ne_of_getElem_ne hdlen (by rw [hdi]; exact hcb)
      have hcond : holo_dht_location_bytes blake
          (((b.set i c).drop 3).take 32) ≠ (b.set i c).drop 35 := by
        rw [hcore, hck, htail]
        exact Ne.symm hdne
      rw [holo_decode_encode blake pfx _ hbytes2, if_neg (by simp [hlen2]),
        if_neg (by simp [htake]), if_pos hcond]
  · intro j hj c hc128 hcne
    cases j with
    | zero =>
      have hc117 : c ≠ 117 := by
        simpa [holo_hash_encode, List.getD_cons_zero] using hcne
      intro hok
      rw [show (holo_hash_encode b).set 0 c = c :: b64EncodeBytes b from rfl]
        at hok
      unfold holo_hash_decode at hok
      rw [if_neg (by simp), if_neg (by simpa using hc128),
        if_pos (by simpa using hc117)] at hok
      exact absurd hok (by simp)
    | succ k =>
      have hkb : k < (b64EncodeBytes b).length := by
        simpa [holo_hash_encode] using hj
      have hck2 : c ≠ (b64EncodeBytes b)[k] := by
        have := hcne
        rw [holo_hash_encode, List.getD_cons_succ,
          List.getD_eq_getElem _ _ hkb] at this
        exact this
      intro hok
      rw [show (holo_hash_encode b).set (k + 1) c =
        117 :: (b64EncodeBytes b).set k c from rfl] at hok
      obtain ⟨hs, -, -, -⟩ := holo_decode_ok hok
      rw [holo_hash_encode] at hs
      have hbody : (b64EncodeBytes b).set k c = b64EncodeBytes b :=
        List.cons.inj hs |>.2
      exact set_ne_of_getElem_ne hkb hck2 hbody

/-- A concrete 39-byte hash value with prefix `[132, 32, 36]`, a zero core
and the checksum valid for `constBlake`; used to instantiate witnesses. -/
def sampleHash : List Nat :=
  [132, 32, 36] ++ List.replicate 32 0 ++ [0, 0, 0, 0]

/-- Witness for C3: the round trip at a concrete valid 39-byte value, and a
prefix-byte mutation rejected with `BadPrefix`. -/
theorem claim_C3_witness :
    (sampleHash.length = 39 ∧ (∀ x ∈ sampleHash, x < 256) ∧
      sampleHash.take 3 = [132, 32, 36] ∧
      holo_dht_location_bytes constBlake ((sampleHash.drop 3).take 32) =
        sampleHash.drop 35) ∧
    holo_hash_decode constBlake [132, 32, 36] (holo_hash_encode sampleHash) =
      .ok sampleHash ∧
    holo_hash_decode constBlake [132, 32, 36]
      (holo_hash_encode (sampleHash.set 0 5)) = .err .BadPrefix :=
  ⟨⟨by decide, by decide, by decide, by decide⟩,
   (claim_C3_hash_roundtrip constBlake [132, 32, 36] sampleHash
      (by decide) (by decide) (by decide) (by decide)).1,
   ((claim_C3_hash_roundtrip constBlake [132, 32, 36] sampleHash
      (by decide) (by decide) (by decide) (by decide)).2.1 0 (by decide) 5
      (by decide) (by decide)).2.1 (by decide)⟩

/-- C4 (amended): for every nonempty input string whose first character is
one byte long (first byte `< 128`), `holo_hash_decode` is total and fails
closed: it never panics, a success returns exactly 39 bytes with the
requested prefix, and every failure is one of the closed error set — `NoU`
when the string does not begin with `u`, `BadBase64`, `BadSize`,
`BadPrefix`, `BadChecksum` in the remaining cases. (The unamended claim is
false: on the empty string the source's `&s[..1]` slice panics, see the
counterexample.) -/
theorem claim_C4_decode_fails_closed (blake : List Nat → List Nat)
    (pfx s : List Nat) (hne : s ≠ []) (hascii : s.headI < 128) :
    holo_hash_decode blake pfx s ≠ .panic ∧
    (∀ b, holo_hash_decode blake pfx s = .ok b →
      b.length = 39 ∧ b.take 3 = pfx) ∧
    (s.headI ≠ 117 → holo_hash_decode blake pfx s = .err .NoU) ∧
    (b64DecodeBytes (s.drop 1) = none → s.headI = 117 →
      holo_hash_decode blake pfx s = .err .BadBase64) ∧
    (∀ b, b64DecodeBytes (s.drop 1) = some b → s.headI = 117 →
      (b.length ≠ 39 → holo_hash_decode blake pfx s = .err .BadSize) ∧
      (b.length = 39 → b.take 3 ≠ pfx →
        holo_hash_decode blake pfx s = .err .BadPrefix) ∧
      (b.length = 39 → b.take 3 = pfx →
        holo_dht_location_bytes blake ((b.drop 3).take 32) ≠ b.drop 35 →
        holo_hash_decode blake pfx s = .err .BadChecksum)) := by
  have h1 : ¬ s.length < 1 := by
    have := List.length_pos.mpr hne
    omega
  have h2 : ¬ 128 ≤ s.headI := by omega
  refine ⟨?_, ?_, ?_, ?_, ?_⟩
  · unfold holo_hash_decode
    rw [if_neg h1, if_neg h2]
    by_cases h3 : s.headI ≠ 117
    · rw [if_pos h3]
      simp
    · rw [if_neg h3]
      cases hd : b64DecodeBytes (s.drop 1) with
      | none => simp
      | some bb =>
        dsimp only
        split_ifs <;> simp
  · intro b hok
    obtain ⟨-, hl, hp, -⟩ := holo_decode_ok hok
    exact ⟨hl, hp⟩
  · intro h3
    unfold holo_hash_decode
    rw [if_neg h1, if_neg h2, if_pos h3]
  · intro hd h117
    unfold holo_hash_decode
    rw [if_neg h1, if_neg h2, if_neg (by simp [h117]), hd]
  · intro b hd h117
    refine ⟨?_, ?_, ?_⟩
    · intro hlen39
      unfold holo_hash_decode
      rw [if_neg h1, if_neg h2, if_neg (by simp [h117]), hd]
      dsimp only
      simp only [HOLO_HASH_FULL_LEN, HOLO_HASH_PREFIX_LEN,
        HOLO_HASH_CORE_LEN]
      rw [if_pos hlen39]
    · intro hlen39 hpne
      unfold holo_hash_decode
      rw [if_neg h1, if_neg h2, if_neg (by simp [h117]), hd]
      dsimp only
      simp only [HOLO_HASH_FULL_LEN, HOLO_HASH_PREFIX_LEN,
        HOLO_HASH_CORE_LEN]
      rw [if_neg (by simp [hlen39]), if_pos hpne]
    · intro hlen39 hpeq hckne
      unfold holo_hash_decode
      rw [if_neg h1, if_neg h2, if_neg (by simp [h117]), hd,
        show HOLO_HASH_PREFIX_LEN + HOLO_HASH_CORE_LEN = 35 from rfl]
      dsimp only
      simp only [HOLO_HASH_FULL_LEN, HOLO_HASH_PREFIX_LEN,
        HOLO_HASH_CORE_LEN]
      rw [if_neg (by simp [hlen39]), if_neg (by simp [hpeq]),
        if_pos hckne]

/-- Counterexample for C4 as stated: the claim includes the empty string
among the inputs rejected with an error, but on the empty string the
source's byte slice `&s[..1]` panics instead of returning an error. -/
theorem claim_C4_counterexample :
    holo_hash_decode constBlake [132, 32, 36] [] = .panic := rfl

/-- Witness for C4 (amended) at the one-byte string `"w"`: rejected with
`NoU`, no panic. -/
theorem claim_C4_witness :
    ([119] : List Nat) ≠ [] ∧ ([119] : List Nat).headI < 128 ∧
    holo_hash_decode constBlake [132, 32, 36] [119] = .err .NoU :=
  ⟨by decide, by decide,
   (claim_C4_decode_fails_closed constBlake [132, 32, 36] [119]
      (by decide) (by decide)).2.2.1 (by decide)⟩

/-- `Nat.xor` as the `^^^` notation (bridges folded hash terms to the
standard xor lemmas). -/
theorem natxor_eq (a b : Nat) : Nat.xor a b = a ^^^ b := rfl

/-- Folding XOR with an arbitrary seed factors through the zero-seeded
fold. -/
theorem foldr_xor_shift (l : List Nat) (c : Nat) :
    l.foldr Nat.xor c = Nat.xor (l.foldr Nat.xor 0) c := by
  induction l with
  | nil =>
    simp only [List.foldr_nil, natxor_eq, Nat.zero_xor]
  | cons a t ih =>
    simp only [List.foldr_cons, ih, natxor_eq, Nat.xor_assoc]

/-- Filtering with the disjunction of two disjoint predicates is, up to
permutation, the concatenation of the two filters. -/
theorem filter_union_perm {α : Type} (p q : α → Bool)
    (hdisj : ∀ a, ¬(p a = true ∧ q a = true)) :
    ∀ l : List α,
      (l.filter (fun a => p a || q a)).Perm (l.filter p ++ l.filter q)
  | [] => by simp
  | a :: t => by
    have ih := filter_union_perm p q hdisj t
    by_cases hp : p a
    · have hq : q a = false := by
        have := fun h => hdisj a ⟨hp, h⟩
        cases hqa : q a
        · rfl
        · exact absurd hqa this
      simp only [List.filter_cons, hp, hq, Bool.true_or, if_true, if_false,
        Bool.false_eq_true, List.cons_append]
      exact ih.cons a
    · have hp2 : p a = false := by
        cases hpa : p a
        · rfl
        · exact absurd hpa hp
      by_cases hq : q a
      · simp only [List.filter_cons, hp2, hq, Bool.false_or, if_true,
          if_false, Bool.false_eq_true]
        exact (ih.cons a).trans List.perm_middle.symm
      · have hq2 : q a = false := by
          cases hqa : q a
          · rfl
          · exact absurd hqa hq
        simp only [List.filter_cons, hp2, hq2, Bool.false_or, if_false,
          Bool.false_eq_true]
        exact ih

/-- Pointwise: the `(H+1)`-quantum window splits as the `H`-quantum window
or the `H`-th time column. -/
theorem histWindow_succ (origin quantum H : Nat) (o : RegionOp) :
    histWindow origin quantum (H + 1) o =
      (histWindow origin quantum H o ||
        opInRegion (regionTimeColumn origin quantum H) o) := by
  rw [Bool.eq_iff_iff]
  simp only [histWindow, opInRegion, regionTimeColumn, Bool.and_eq_true,
    Bool.or_eq_true, decide_eq_true_eq, Nat.succ_mul]
  omega

/-- The per-column filters of the historic quanta are, up to permutation,
the single filter over the whole historic window. -/
theorem flat_columns_perm (origin quantum : Nat) (ops : List RegionOp) :
    ∀ H : Nat,
      ((List.range H).flatMap (fun i =>
        ops.filter (opInRegion (regionTimeColumn origin quantum i)))).Perm
        (ops.filter (histWindow origin quantum H))
  | 0 => by
    have h0 : ops.filter (histWindow origin quantum 0) = [] := by
      rw [List.filter_eq_nil_iff]
      intro a _
      simp only [histWindow, Bool.and_eq_true, decide_eq_true_eq, not_and]
      intro h1 h2
      omega
    simp [h0]
  | H + 1 => by
    have ih := flat_columns_perm origin quantum ops H
    have hdisj : ∀ a, ¬(histWindow origin quantum H a = true ∧
        opInRegion (regionTimeColumn origin quantum H) a = true) := by
      intro a
      simp only [histWindow, opInRegion, regionTimeColumn, Bool.and_eq_true,
        decide_eq_true_eq, not_and]
      intro h1 h2
      omega
    have hcongr : ops.filter (histWindow origin quantum (H + 1)) =
        ops.filter (fun a => histWindow origin quantum H a ||
          opInRegion (regionTimeColumn origin quantum H) a) :=
      List.filter_congr (fun a _ => histWindow_succ origin quantum H a)
    rw [List.range_succ, List.flatMap_append, hcongr]
    have hsing : ([H] : List Nat).flatMap (fun i =>
        ops.filter (opInRegion (regionTimeColumn origin quantum i))) =
        ops.filter (opInRegion (regionTimeColumn origin quantum H)) := by
      simp
    rw [hsing]
    exact (ih.append_right _).trans (filter_union_perm _ _ hdisj ops).symm

/-- The summed region data of a region set built over bounds `rl` records
the length, total size and XOR-folded hashes of the ops fetched from
`rl`. -/
theorem regionSum_components (ops : List RegionOp) :
    ∀ rl : List RegionBounds,
      regionSum (rl.map (fun b => (b, regionData ops b))) =
        ⟨(fetch_ops_by_regions ops rl).length,
         ((fetch_ops_by_regions ops rl).map RegionOp.size).sum,
         ((fetch_ops_by_regions ops rl).map RegionOp.hash).foldr Nat.xor 0⟩
  | [] => rfl
  | r :: rs => by
    have ih := regionSum_components ops rs
    show RegionData.add (regionData ops r)
        (regionSum (rs.map (fun b => (b, regionData ops b)))) = _
    rw [ih]
    simp only [fetch_ops_by_regions, List.flatMap_cons, regionData,
      RegionData.add, List.length_append, List.map_append,
      List.foldr_append, List.sum_append]
    rw [foldr_xor_shift (List.map RegionOp.hash
      (List.filter (opInRegion r) ops))
      (List.foldr Nat.xor 0 (List.map RegionOp.hash
        (rs.flatMap (fun r => List.filter (opInRegion r) ops))))]

/-- C2: for an integrated op set with 100 ops in the historic window and
100 ops younger than the recent cutoff (the window's upper end, two time
quanta before now), `query_region_set` over the full arc yields regions
whose summed counts equal 100 and whose XOR-summed hash equals the XOR of
the 100 historic ops' hashes; the recent ops fall in no returned region;
and `fetch_ops_by_regions` over all returned regions returns exactly the
historic op set as a multiset. -/
theorem claim_C2_region_queries (origin quantum histQuanta : Nat)
    (hist recent : List RegionOp)
    (hhist : ∀ o ∈ hist, origin ≤ o.timestamp ∧
      o.timestamp < origin + histQuanta * quantum ∧ o.loc < SPACE_SIZE)
    (hrecent : ∀ o ∈ recent, origin + histQuanta * quantum ≤ o.timestamp)
    (hcount : hist.length = 100) :
    (regionSum (query_region_set origin quantum histQuanta
        (hist ++ recent))).count = 100 ∧
    (regionSum (query_region_set origin quantum histQuanta
        (hist ++ recent))).hash =
      (hist.map RegionOp.hash).foldr Nat.xor 0 ∧
    (∀ o ∈ recent, ∀ p ∈ query_region_set origin quantum histQuanta
        (hist ++ recent), opInRegion p.1 o = false) ∧
    ((fetch_ops_by_regions (hist ++ recent)
        ((query_region_set origin quantum histQuanta (hist ++ recent)).map
          (fun p => p.1))) : Multiset RegionOp) = (hist : Multiset RegionOp)
    := by
  have hfilter : (hist ++ recent).filter
      (histWindow origin quantum histQuanta) = hist := by
    rw [List.filter_append]
    have h1 : hist.filter (histWindow origin quantum histQuanta) = hist :=
      List.filter_eq_self.mpr (fun a ha => by
        obtain ⟨x1, x2, x3⟩ := hhist a ha
        simp [histWindow, x1, x2, x3])
    have h2 : recent.filter (histWindow origin quantum histQuanta) = [] :=
      List.filter_eq_nil_iff.mpr (fun a ha => by
        have hx := hrecent a ha
        simp only [histWindow, Bool.and_eq_true, decide_eq_true_eq, not_and]
        intro h1 h2
        omega)
    rw [h1, h2, List.append_nil]
  have hmapfst : (query_region_set origin quantum histQuanta
      (hist ++ recent)).map (fun p => p.1) =
      (List.range histQuanta).map (regionTimeColumn origin quantum) := by
    simp [query_region_set, List.map_map]
  have hq : query_region_set origin quantum histQuanta (hist ++ recent) =
      ((List.range histQuanta).map (regionTimeColumn origin quantum)).map
        (fun b => (b, regionData (hist ++ recent) b)) := by
    simp [query_region_set, List.map_map]
  have hfetch : fetch_ops_by_regions (hist ++ recent)
      ((List.range histQuanta).map (regionTimeColumn origin quantum)) =
      (List.range histQuanta).flatMap (fun i =>
        (hist ++ recent).filter
          (opInRegion (regionTimeColumn origin quantum i))) := by
    rw [fetch_ops_by_regions, List.flatMap_map]
  have hperm : (fetch_ops_by_regions (hist ++ recent)
      ((List.range histQuanta).map
        (regionTimeColumn origin quantum))).Perm hist := by
    rw [hfetch]
    have hp1 := flat_columns_perm origin quantum (hist ++ recent) histQuanta
    rwa [hfilter] at hp1
  have hcomp := regionSum_components (hist ++ recent)
    ((List.range histQuanta).map (regionTimeColumn origin quantum))
  refine ⟨?_, ?_, ?_, ?_⟩
  · rw [hq, hcomp]
    exact hperm.length_eq.trans hcount
  · rw [hq, hcomp]
    exact (hperm.map RegionOp.hash).foldr_eq 0
  · intro o ho p hp
    rw [hq] at hp
    obtain ⟨b, hb, rfl⟩ := List.mem_map.mp hp
    obtain ⟨i, hi, rfl⟩ := List.mem_map.mp hb
    have hiq : (i + 1) * quantum ≤ histQuanta * quantum :=
      Nat.mul_le_mul_right _ (List.mem_range.mp hi)
    have hx := hrecent o ho
    simp only [opInRegion, regionTimeColumn]
    have : ¬ o.timestamp < origin + (i + 1) * quantum := by omega
    simp [this]
  · rw [hmapfst, Multiset.coe_eq_coe]
    exact hperm

/-- Witness for C2: origin 0, quantum 10, three historic quanta, the 100
sample historic ops and 100 sample recent ops. -/
theorem claim_C2_witness :
    ((∀ o ∈ sampleHistOps, 0 ≤ o.timestamp ∧
        o.timestamp < 0 + 3 * 10 ∧ o.loc < SPACE_SIZE) ∧
      (∀ o ∈ sampleRecentOps, 0 + 3 * 10 ≤ o.timestamp) ∧
      sampleHistOps.length = 100) ∧
    (regionSum (query_region_set 0 10 3
        (sampleHistOps ++ sampleRecentOps))).count = 100 :=
  ⟨⟨by decide, by decide, by decide⟩,
   (claim_C2_region_queries 0 10 3 sampleHistOps sampleRecentOps
      (by decide) (by decide) (by decide)).1⟩

/-- The empty result trivially walks any expectation. -/
@[simp]
theorem linkedFrom_nil (p : Option Nat) : linkedFrom p [] = true := by
  cases p <;> rfl

/-- Invariant of the query fold: the rows it appends to the state's chain
walk the `prev_action` links starting from the state's expectation. -/
theorem foldl_chain_extend : ∀ (rows : List ActivityRow) (st : QueryState),
    ∃ t, (rows.foldl foldStep st).chain = st.chain ++ t ∧
      linkedFrom st.prev_action t = true
  | [], st => ⟨[], by simp, by simp⟩
  | r :: rest, st => by
    rw [List.foldl_cons]
    by_cases hm : some r.hash = st.prev_action
    · obtain ⟨t, ht, hl⟩ := foldl_chain_extend rest (foldStep st r)
      have hfs : foldStep st r =
          ⟨st.chain ++ [r], r.prev_action⟩ := by simp [foldStep, hm]
      refine ⟨r :: t, ?_, ?_⟩
      · rw [ht, hfs]
        simp
      · rw [← hm, linkedFrom]
        rw [hfs] at hl
        simp [hl]
    · obtain ⟨t, ht, hl⟩ := foldl_chain_extend rest (foldStep st r)
      have hfs : foldStep st r = st := by simp [foldStep, hm]
      rw [hfs] at ht hl
      rw [hfs]
      exact ⟨t, ht, hl⟩

/-- The one-row slice. -/
theorem descSlice_self (ch : Nat → ActivityRow) (lo : Nat) :
    descSlice ch lo lo = [ch lo] := by
  have h1 : lo + 1 - lo = 1 := by omega
  simp only [descSlice, h1, List.range_succ, List.range_zero,
    List.nil_append, List.map_cons, List.map_nil, Nat.sub_zero]

/-- Peeling the top row off a descending slice. -/
theorem descSlice_step (ch : Nat → ActivityRow) (lo d : Nat) :
    descSlice ch lo (lo + (d + 1)) =
      ch (lo + (d + 1)) :: descSlice ch lo (lo + d) := by
  unfold descSlice
  have h1 : lo + (d + 1) + 1 - lo = (d + 1) + 1 := by omega
  have h2 : lo + d + 1 - lo = d + 1 := by omega
  rw [h1, h2, List.range_succ_eq_map]
  simp only [List.map_cons, Nat.sub_zero, List.map_map]
  refine congrArg (List.cons _) ?_
  have hfn : ((fun k => ch (lo + (d + 1) - k)) ∘ Nat.succ) =
      (fun k => ch (lo + d - k)) := by
    funext k
    simp only [Function.comp]
    congr 1
    omega
  rw [hfn]

/-- Folding over a descending slice whose top hash matches the state's
expectation keeps every row. -/
theorem foldl_descSlice (ch : Nat → ActivityRow) (n : Nat)
    (hprev : ∀ i, i + 1 < n → (ch (i + 1)).prev_action = some (ch i).hash) :
    ∀ (d lo : Nat), lo + d < n → ∀ st : QueryState,
      st.prev_action = some (ch (lo + d)).hash →
      (List.foldl foldStep st (descSlice ch lo (lo + d))).chain =
        st.chain ++ descSlice ch lo (lo + d)
  | 0, lo, hn, st, hst => by
    simp only [Nat.add_zero] at hst ⊢
    rw [descSlice_self, List.foldl_cons, List.foldl_nil]
    simp [foldStep, hst]
  | d + 1, lo, hn, st, hst => by
    rw [descSlice_step, List.foldl_cons]
    have hfs : foldStep st (ch (lo + (d + 1))) =
        ⟨st.chain ++ [ch (lo + (d + 1))], (ch (lo + (d + 1))).prev_action⟩ := by
      simp [foldStep, hst]
    have hpr : (ch (lo + (d + 1))).prev_action = some (ch (lo + d)).hash := by
      have h := hprev (lo + d) (by omega)
      have he : lo + d + 1 = lo + (d + 1) := by omega
      rwa [he] at h
    rw [hfs]
    rw [foldl_descSlice ch n hprev d lo (by omega) _ (by simpa using hpr)]
    simp [descSlice_step]

/-- Filtering `range n` by a lower bound gives the tail interval. -/
theorem range_filter_ge : ∀ n lo : Nat,
    (List.range n).filter (fun i => decide (lo ≤ i)) =
      List.range' lo (n - lo)
  | 0, lo => by simp
  | n + 1, lo => by
    rw [List.range_succ, List.filter_append, range_filter_ge n lo]
    by_cases h : lo ≤ n
    · rw [show (([n] : List Nat).filter (fun i => decide (lo ≤ i))) = [n]
        from by simp [h]]
      have h2 : n + 1 - lo = (n - lo) + 1 := by omega
      rw [h2, List.range'_concat,
        show lo + 1 * (n - lo) = n from by omega]
    · rw [show (([n] : List Nat).filter (fun i => decide (lo ≤ i))) = []
        from by simp [h], List.append_nil]
      have h2 : n + 1 - lo = 0 := by omega
      have h3 : n - lo = 0 := by omega
      rw [h2, h3]

/-- Filtering `range n` by an upper bound `hi < n` gives `range (hi+1)`. -/
theorem range_filter_le : ∀ n hi : Nat, hi < n →
    (List.range n).filter (fun i => decide (i ≤ hi)) = List.range (hi + 1)
  | 0, hi, h => by omega
  | n + 1, hi, h => by
    rw [List.range_succ, List.filter_append]
    by_cases he : hi = n
    · subst he
      rw [show (([hi] : List Nat).filter (fun i => decide (i ≤ hi))) = [hi]
        from by simp]
      rw [show (List.range hi).filter (fun i => decide (i ≤ hi)) =
          (List.range hi).filter (fun _ => true) from
        List.filter_congr (fun i hmem => by
          simp [Nat.le_of_lt (List.mem_range.mp hmem)])]
      rw [List.filter_true, List.range_succ]
    · have hlt : hi < n := by omega
      rw [range_filter_le n hi hlt,
        show (([n] : List Nat).filter (fun i => decide (i ≤ hi))) = []
          from by simp [Nat.lt_iff_add_one_le.mp hlt, show ¬ n ≤ hi from by omega],
        List.append_nil]

/-- Reversing an interval `range' lo k` enumerates it from the top. -/
theorem range'_reverse_eq : ∀ (k lo : Nat),
    (List.range' lo k).reverse = (List.range k).map (fun j => lo + k - 1 - j)
  | 0, lo => rfl
  | k + 1, lo => by
    rw [List.range'_succ, List.reverse_cons, range'_reverse_eq k (lo + 1),
      List.range_succ, List.map_append]
    congr 1
    · have hfn : (fun j => lo + 1 + k - 1 - j) =
          (fun j : Nat => lo + (k + 1) - 1 - j) := by
        funext j
        omega
      rw [hfn]
    · simp only [List.map_cons, List.map_nil]
      rw [show lo + (k + 1) - 1 - k = lo from by omega]

/-- The descending slice is the reverse of the ascending interval. -/
theorem descSlice_eq_reverse (ch : Nat → ActivityRow) (lo hi : Nat)
    (h : lo ≤ hi) :
    descSlice ch lo hi = ((List.range' lo (hi + 1 - lo)).map ch).reverse := by
  rw [← List.map_reverse, range'_reverse_eq]
  rw [List.map_map]
  unfold descSlice
  have hfn : (ch ∘ fun j => lo + (hi + 1 - lo) - 1 - j) =
      (fun k => ch (hi - k)) := by
    funext j
    simp only [Function.comp]
    congr 1
    omega
  rw [hfn]

/-- The SQL query over a fork-free chain window returns exactly the
descending slice `[ch hi, …, ch lo]`, whenever the range condition reduces
pointwise to `lo ≤ seq ≤ hi`. -/
theorem queryRows_eq_descSlice (db : List ActivityRow) (a : Nat)
    (ch : Nat → ActivityRow) (n : Nat) (M : ChainModel db a ch n)
    (lo hi : Nat) (hlohi : lo ≤ hi) (hhin : hi < n) (low : Option Nat)
    (hlow : ∀ r ∈ db, rowInRange db low (ch hi).hash r =
      (decide (lo ≤ r.seq) && decide (r.seq ≤ hi))) :
    queryRows db a low (ch hi).hash = descSlice ch lo hi := by
  have hfc : db.filter (fun r => decide (r.author = a) &&
      rowInRange db low (ch hi).hash r) =
      (db.filter (fun r => decide (r.author = a))).filter
        (fun r => decide (lo ≤ r.seq) && decide (r.seq ≤ hi)) := by
    rw [List.filter_filter]
    refine List.filter_congr (fun r hr => ?_)
    rw [hlow r hr, Bool.and_comm]
  have hperm1 := M.rows.filter
    (fun r => decide (lo ≤ r.seq) && decide (r.seq ≤ hi))
  have hmap : ((List.range n).map ch).filter
      (fun r => decide (lo ≤ r.seq) && decide (r.seq ≤ hi)) =
      ((List.range n).filter (fun i =>
        decide (lo ≤ (ch i).seq) && decide ((ch i).seq ≤ hi))).map ch := by
    rw [List.filter_map]
    rfl
  have hidx : (List.range n).filter (fun i =>
      decide (lo ≤ (ch i).seq) && decide ((ch i).seq ≤ hi)) =
      (List.range n).filter (fun i => decide (lo ≤ i) && decide (i ≤ hi)) := by
    refine List.filter_congr (fun i hmem => ?_)
    rw [M.seq_eq i (List.mem_range.mp hmem)]
  have hint : (List.range n).filter
      (fun i => decide (lo ≤ i) && decide (i ≤ hi)) =
      List.range' lo (hi + 1 - lo) := by
    rw [← List.filter_filter, range_filter_le n hi hhin,
      range_filter_ge (hi + 1) lo]
  have hpermQ : (queryRows db a low (ch hi).hash).Perm
      (descSlice ch lo hi) := by
    rw [queryRows, hfc]
    refine (List.perm_insertionSort seqDesc _).trans ?_
    refine hperm1.trans ?_
    rw [hmap, hidx, hint, descSlice_eq_reverse ch lo hi hlohi]
    exact (List.reverse_perm _).symm
  have hsorted_desc : List.Sorted seqStrict (descSlice ch lo hi) := by
    rw [List.Sorted, List.pairwise_iff_getElem]
    intro i j hi2 hj2 hij
    have hleng : (descSlice ch lo hi).length = hi + 1 - lo := by
      simp [descSlice]
    have hi3 : i < hi + 1 - lo := by rw [← hleng]; exact hi2
    have hj3 : j < hi + 1 - lo := by rw [← hleng]; exact hj2
    have hgi : (descSlice ch lo hi)[i] = ch (hi - i) := by
      simp [descSlice]
    have hgj : (descSlice ch lo hi)[j] = ch (hi - j) := by
      simp [descSlice]
    rw [hgi, hgj, seqStrict, M.seq_eq (hi - i) (by omega),
      M.seq_eq (hi - j) (by omega)]
    omega
  have hsorted_q : List.Sorted seqStrict (queryRows db a low (ch hi).hash)
      := by
    have hs1 : List.Sorted seqDesc (queryRows db a low (ch hi).hash) :=
      List.sorted_insertionSort seqDesc _
    have hne_desc : List.Pairwise (fun x y : ActivityRow => x.seq ≠ y.seq)
        (descSlice ch lo hi) :=
      List.Pairwise.imp (fun h => by
        simp only [seqStrict] at h
        omega) hsorted_desc
    have hne_q : List.Pairwise (fun x y : ActivityRow => x.seq ≠ y.seq)
        (queryRows db a low (ch hi).hash) :=
      (List.Perm.pairwise_iff (fun h => h.symm) hpermQ).mpr hne_desc
    refine List.Pairwise.imp ?_ (List.Pairwise.and hs1 hne_q)
    intro x y h
    obtain ⟨h1, h2⟩ := h
    simp only [seqDesc] at h1
    simp only [seqStrict]
    omega
  exact List.eq_of_perm_of_sorted hpermQ hsorted_q hsorted_desc

/-- C1: `deterministic_get_agent_activity(author, range)` walks
`prev_action` backward from `range.high`, keeping a row only if its hash is
the expected `prev_action` of the previously kept row — so on any store
(forked or not) the result is exactly the prev-linked branch reachable from
the high hash; and on a fork-free chain window it returns exactly the
contiguous descending-seq slice between the low and high hashes inclusive
(all of `[high…0]` when the low bound is `None`). -/
theorem claim_C1_deterministic_activity :
    (∀ (db : List ActivityRow) (author high : Nat) (low : Option Nat),
      linkedFrom (some high)
        (deterministic_get_agent_activity db author low high) = true) ∧
    (∀ (db : List ActivityRow) (a : Nat) (ch : Nat → ActivityRow)
        (n lo hi : Nat), ChainModel db a ch n → lo ≤ hi → hi < n →
      deterministic_get_agent_activity db a (some (ch lo).hash)
        (ch hi).hash = descSlice ch lo hi) ∧
    (∀ (db : List ActivityRow) (a : Nat) (ch : Nat → ActivityRow)
        (n hi : Nat), ChainModel db a ch n → hi < n →
      deterministic_get_agent_activity db a none (ch hi).hash =
        descSlice ch 0 hi) := by
  refine ⟨?_, ?_, ?_⟩
  · intro db author high low
    unfold deterministic_get_agent_activity
    obtain ⟨t, ht, hl⟩ :=
      foldl_chain_extend (queryRows db author low high) (initState high)
    rw [ht]
    simpa [initState] using hl
  · intro db a ch n lo hi M hlohi hhin
    have hlow : ∀ r ∈ db, rowInRange db (some (ch lo).hash) (ch hi).hash r =
        (decide (lo ≤ r.seq) && decide (r.seq ≤ hi)) := by
      intro r _
      simp [rowInRange, M.seq_lookup lo (by omega), M.seq_lookup hi hhin]
    have hq := queryRows_eq_descSlice db a ch n M lo hi hlohi hhin
      (some (ch lo).hash) hlow
    unfold deterministic_get_agent_activity
    rw [hq]
    obtain ⟨d, rfl⟩ : ∃ d, hi = lo + d := ⟨hi - lo, by omega⟩
    rw [foldl_descSlice ch n M.prev_link d lo hhin
      (initState (ch (lo + d)).hash) rfl]
    simp [initState]
  · intro db a ch n hi M hhin
    have hlow : ∀ r ∈ db, rowInRange db none (ch hi).hash r =
        (decide (0 ≤ r.seq) && decide (r.seq ≤ hi)) := by
      intro r _
      simp [rowInRange, M.seq_lookup hi hhin]
    have hq := queryRows_eq_descSlice db a ch n M 0 hi (Nat.zero_le hi)
      hhin none hlow
    unfold deterministic_get_agent_activity
    rw [hq]
    obtain ⟨d, rfl⟩ : ∃ d, hi = 0 + d := ⟨hi, by omega⟩
    rw [foldl_descSlice ch n M.prev_link d 0 hhin
      (initState (ch (0 + d)).hash) rfl]
    simp [initState]

/-- Witness for C1: a concrete 10-action chain of author 7; the range
`(None, hash[9])` returns all 10 rows and `(hash[4], hash[8])` returns the
5 rows `[8, 7, 6, 5, 4]`. -/
theorem claim_C1_witness :
    (ChainModel ((List.range 10).map sampleChain) 7 sampleChain 10 ∧
      (4 : Nat) ≤ 8 ∧ (8 : Nat) < 10 ∧ (9 : Nat) < 10) ∧
    deterministic_get_agent_activity ((List.range 10).map sampleChain) 7
      (some (sampleChain 4).hash) (sampleChain 8).hash =
      descSlice sampleChain 4 8 ∧
    deterministic_get_agent_activity ((List.range 10).map sampleChain) 7
      none (sampleChain 9).hash = descSlice sampleChain 0 9 ∧
    (descSlice sampleChain 0 9).length = 10 ∧
    (descSlice sampleChain 4 8).length = 5 := by
  have hpl : ∀ i, i < 9 →
      (sampleChain (i + 1)).prev_action = some (sampleChain i).hash := by
    decide
  have M : ChainModel ((List.range 10).map sampleChain) 7 sampleChain 10 :=
    ⟨by decide, by decide, fun i hi => hpl i (by omega), by decide,
     by decide⟩
  exact ⟨⟨M, by decide, by decide, by decide⟩,
    claim_C1_deterministic_activity.2.1 ((List.range 10).map sampleChain)
      7 sampleChain 10 4 8 M (by decide) (by decide),
    claim_C1_deterministic_activity.2.2 ((List.range 10).map sampleChain)
      7 sampleChain 10 9 M (by decide),
    by decide, by decide⟩

end Holochain
